import Mathlib

/-!
Shallow embedding of the per-platform feature analysis unit
(src/impl/src/features.rs) of cargo-raze-new-features.

Modelling conventions:
* Rust HashMap and HashSet values are represented as association lists and
  element lists whose order stands for the (unspecified) iteration order of
  the hash container.  Functions that insert into a hash container are
  modelled by insertion-order association-list updates; a claim about
  hash-order independence is settled by quantifying over (or exhibiting)
  different list presentations of the same contents.
* Fallible Rust code (anyhow::Result) is modelled by the Outcome type below;
  a Rust panic (assert!, str::split_at out of bounds) is modelled by the
  distinguished Outcome.aborted value, which is not an error return.
* Machine strings are Lean String / List Char; the byte-wise Rust Ord on
  strings is modelled char-wise, which agrees with it on ASCII data.
-/

/-- The distinct failure sites of features.rs, named after the error
taxonomy of the specification.  In the source, lineFormatError and
lookupError are RazeError::Generic values with distinct messages,
versionParseError is the semver parse error, subprocessFailure is the io
error of Command::output, and decodingFailure is the from_utf8 error. -/
inductive ErrKind where
  | subprocessFailure
  | decodingFailure
  | lineFormatError
  | versionParseError
  | lookupError
deriving DecidableEq, Repr

/-- Result of running a piece of the pipeline: an ok value, a propagated
error, or a process abort (Rust panic). -/
inductive Outcome (α : Type) where
  | ok (a : α)
  | err (e : ErrKind)
  | aborted
deriving DecidableEq, Repr

/-- Model of cargo_metadata::Version restricted to the numeric
major.minor.patch triple, which is all this unit inspects. -/
structure Version where
  major : Nat
  minor : Nat
  patch : Nat
deriving DecidableEq, Repr

/-- Model of cargo_metadata::Package: the three fields read by
features.rs (name, version and the opaque id used as a map key). -/
structure Package where
  name : String
  version : Version
  id : String
deriving DecidableEq, Repr

/-- Mirrors struct TargetedFeatures of features.rs. -/
structure TargetedFeatures where
  platforms : List String
  features : List String
deriving DecidableEq, Repr

/-- Mirrors struct Features of features.rs. -/
structure Features where
  features : List String
  targeted_features : List TargetedFeatures
deriving DecidableEq, Repr

/-- Modelled from the spec: the two settings fields consumed by
get_per_platform_features (settings.rs is not part of the analyzed
source); section 6 of the spec describes them as an optional primary
target platform and an optional list of additional target platforms. -/
structure RazeSettings where
  target : Option String
  targets : Option (List String)

/-- The observable result of one invocation of the external
dependency-tree subprocess: whether it could be launched, its exit
status, whether its stdout is valid text, and the decoded output lines.
The subprocess itself is outside the program; theorems quantify over
this oracle. -/
structure ToolResult where
  spawnOk : Bool
  exitSuccess : Bool
  utf8Ok : Bool
  lines : List String

/-- Char-wise lexicographic comparison of char lists; models the
byte-wise Rust Ord on String for ASCII data. -/
def charListLe : List Char → List Char → Bool
  | [], _ => true
  | _ :: _, [] => false
  | a :: as, b :: bs =>
    if a.toNat < b.toNat then true
    else if b.toNat < a.toNat then false
    else charListLe as bs

/-- Boolean string comparison used by the sorts in features.rs. -/
def strLe (a b : String) : Bool := charListLe a.data b.data

/-- Ordered insertion for a stable sort, taking the comparison as a
boolean predicate. -/
def orderedInsertBy (le : α → α → Bool) (a : α) : List α → List α
  | [] => [a]
  | b :: l => if le a b then a :: b :: l else b :: orderedInsertBy le a l

/-- Stable sort by a boolean comparison; models slice::sort (a stable
sort) of Rust: for a total preorder comparison both produce the unique
sorted permutation that keeps the relative order of tied elements. -/
def insertionSortBy (le : α → α → Bool) : List α → List α
  | [] => []
  | a :: l => orderedInsertBy le a (insertionSortBy le l)

/-- Vec::sort of a vector of strings. -/
def sortStrings (l : List String) : List String := insertionSortBy strLe l

/-- First index at which the predicate holds; models str::find. -/
def firstIdx (p : Char → Bool) : List Char → Option Nat
  | [] => none
  | c :: rest => if p c then some 0 else (firstIdx p rest).map (· + 1)

/-- Splits a char list at every occurrence of the separator; models
str::split (note that splitting the empty string yields one empty
piece, as in Rust). -/
def splitOnChar (sep : Char) : List Char → List (List Char)
  | [] => [[]]
  | c :: rest =>
    let r := splitOnChar sep rest
    if c = sep then [] :: r
    else
      match r with
      | [] => [[c]]
      | h :: t => (c :: h) :: t

/-- str::trim, restricted to the whitespace characters Lean knows. -/
def trimChars (cs : List Char) : List Char :=
  ((cs.dropWhile Char.isWhitespace).reverse.dropWhile Char.isWhitespace).reverse

/-- Numeric component of a semantic version: nonempty, all digits, no
leading zero. -/
def parseNumericPart (cs : List Char) : Option Nat :=
  if cs = [] then none
  else if cs.any (fun c => !c.isDigit) then none
  else if 1 < cs.length && cs.head? == some '0' then none
  else some (cs.foldl (fun n c => 10 * n + (c.toNat - 48)) 0)

/-- Model of Version::parse of the external semver crate, restricted to
the plain MAJOR.MINOR.PATCH shape (pre-release and build metadata are
not modelled; no claim depends on them). -/
def versionParse (cs : List Char) : Option Version :=
  match splitOnChar '.' cs with
  | [a, b, c] =>
    match parseNumericPart a, parseNumericPart b, parseNumericPart c with
    | some x, some y, some z => some ⟨x, y, z⟩
    | _, _, _ => none
  | _ => none

/-- HashSet insertion: keeps the first occurrence of each element. -/
def insertSet (acc : List String) (s : String) : List String :=
  if s ∈ acc then acc else acc ++ [s]

/-- Collecting a list of strings into a HashSet, modelled as first
occurrence order. -/
def collectSet (l : List String) : List String := l.foldl insertSet []

/-- The version token extracted by process_line: the remainder of the
left part after the first space, with leading spaces and v markers
stripped, cut at the next space or the end. -/
def versionTokenOf (package : List Char) (space : Nat) : List Char :=
  let version_str := (package.drop space).dropWhile (fun c => c == ' ' || c == 'v')
  let version_end :=
    match firstIdx (fun c => c == ' ') version_str with
    | some i => i
    | none => version_str.length
  version_str.take version_end

/-- The feature blob of a line: everything from the first pipe on, with
pipes stripped, split on commas, empty tokens dropped, collected into a
set. -/
def featureSetOf (cs : List Char) (pipe : Nat) : List String :=
  collectSet (((splitOnChar ',' ((cs.drop pipe).filter (fun c => c ≠ '|'))).filter
    (fun t => t ≠ [])).map (fun t => String.mk t))

/-- Mirrors fn process_line of features.rs.  Finds the first space and
the first pipe; if either is missing it fails with the line format
error.  Otherwise it splits at the pipe into the package part and the
feature blob, collects the blob into a feature set, splits the package
part at the first space into name and version token, and parses the
version.  When the first space lies beyond the package part (the first
pipe precedes it), package.split_at(space) in the source panics, which
the model reports as Outcome.aborted. -/
def process_line (s : String) : Outcome (String × Version × List String) :=
  let cs := s.data
  match firstIdx (fun c => c == ' ') cs, firstIdx (fun c => c == '|') cs with
  | some space, some pipe =>
    let package := cs.take pipe
    if package.length < space then Outcome.aborted
    else
      match versionParse (versionTokenOf package space) with
      | some v =>
        Outcome.ok (String.mk (trimChars (package.take space)), v, featureSetOf cs pipe)
      | none => Outcome.err ErrKind.versionParseError
  | _, _ => Outcome.err ErrKind.lineFormatError

/-- Mirrors fn find_package_id of features.rs: first exact match on
name and version; the None case becomes the lookup error at the call
site. -/
def find_package_id (name : String) (version : Version) (packages : List Package) : Option String :=
  (packages.find? (fun p => decide (p.name = name ∧ p.version = version))).map (fun p => p.id)

/-- HashSet::union collected to a new set: the left contents followed
by the members of the right set that are new. -/
def unionSets (a b : List String) : List String :=
  a ++ b.filter (fun s => decide (s ∉ a))

/-- HashMap::insert for the package map of make_package_map, with the
union-on-existing-key semantics of its match statement. -/
def insertUnion (m : List (String × List String)) (id : String) (fs : List String) :
    List (String × List String) :=
  match m with
  | [] => [(id, fs)]
  | (k, v) :: rest =>
    if k = id then (k, unionSets v fs) :: rest
    else (k, v) :: insertUnion rest id fs

/-- Association-list lookup, modelling HashMap::get. -/
def lookupAssoc (m : List (String × List String)) (k : String) : Option (List String) :=
  match m with
  | [] => none
  | (k0, v) :: rest => if k0 = k then some v else lookupAssoc rest k

/-- The loop body of fn make_package_map: process each line, resolve the
package, and accumulate with union on duplicate identities; the first
failure aborts the loop. -/
def make_package_map_go (packages : List Package) (crates : List String)
    (acc : List (String × List String)) : Outcome (List (String × List String)) :=
  match crates with
  | [] => Outcome.ok acc
  | c :: rest =>
    match process_line c with
    | Outcome.ok (name, version, features) =>
      match find_package_id name version packages with
      | some id => make_package_map_go packages rest (insertUnion acc id features)
      | none => Outcome.err ErrKind.lookupError
    | Outcome.err e => Outcome.err e
    | Outcome.aborted => Outcome.aborted

/-- Mirrors fn make_package_map of features.rs. -/
def make_package_map (crates : List String) (packages : List Package) :
    Outcome (List (String × List String)) :=
  make_package_map_go packages crates []

/-- Suffix test on strings by explicit char comparison (str::ends_with). -/
def strEndsWith (l suf : String) : Bool :=
  decide (l.data.drop (l.data.length - suf.data.length) = suf.data)

/-- The line filter of fn run_cargo_tree: drop dedupe markers, lines
with an empty feature blob, and empty lines. -/
def keepLine (l : String) : Bool :=
  !(strEndsWith l "(*)" || strEndsWith l "||" || l == "")

/-- The lines of one tool invocation that survive the filter of
run_cargo_tree, deduplicated as raw strings. -/
def keptLines (r : ToolResult) : List String :=
  collectSet (r.lines.filter keepLine)

/-- Mirrors fn run_cargo_tree of features.rs, with the subprocess
replaced by its observable ToolResult.  A launch failure propagates as
an error; a non-zero exit hits the assert! in the source, modelled as
Outcome.aborted; invalid output bytes propagate as the decoding error;
otherwise the kept lines are deduplicated as raw strings and handed to
make_package_map. -/
def run_cargo_tree (r : ToolResult) (packages : List Package) :
    Outcome (List (String × List String)) :=
  if !r.spawnOk then Outcome.err ErrKind.subprocessFailure
  else if !r.exitSuccess then Outcome.aborted
  else if !r.utf8Ok then Outcome.err ErrKind.decodingFailure
  else make_package_map (keptLines r) packages

/-- HashMap::insert into the inner platform map of transpose_keys. -/
def assocInsert (tm : List (String × List String)) (k : String) (v : List String) :
    List (String × List String) :=
  match tm with
  | [] => [(k, v)]
  | (k0, v0) :: rest =>
    if k0 = k then (k0, v) :: rest
    else (k0, v0) :: assocInsert rest k v

/-- One insertion step of fn transpose_keys: record that the package is
seen on the platform with the given feature set. -/
def transposeInsert (pm : List (String × List (String × List String)))
    (pkg triple : String) (fs : List String) :
    List (String × List (String × List String)) :=
  match pm with
  | [] => [(pkg, [(triple, fs)])]
  | (p, tm) :: rest =>
    if p = pkg then (p, assocInsert tm triple fs) :: rest
    else (p, tm) :: transposeInsert rest pkg triple fs

/-- Mirrors fn transpose_keys of features.rs: inverts the nesting from
platform to package. -/
def transpose_keys (triples : List (String × List (String × List String))) :
    List (String × List (String × List String)) :=
  triples.foldl (fun pm tp =>
    tp.2.foldl (fun pm2 pkgfs => transposeInsert pm2 pkgfs.1 tp.1 pkgfs.2) pm) []

/-- The fold computing the features common to all platforms:
HashSet::intersection collected, modelled as a membership filter that
keeps the accumulator order. -/
def intersectList (acc hs : List String) : List String :=
  acc.filter (fun f => decide (f ∈ hs))

/-- The common feature set of consolidate_features: the intersection of
all platform sets, seeded with the first set in iteration order.  The
source indexes sets[0] and would panic on an empty map; every caller
passes a non-empty one. -/
def commonOf (sets : List (List String)) : List String :=
  match sets with
  | [] => []
  | s :: rest => rest.foldl intersectList s

/-- The platform_map insertion of consolidate_features: append the
platform to the entry of the feature, creating the entry at the end on
first sight. -/
def pushPlatform (pm : List (String × List String)) (f p : String) :
    List (String × List String) :=
  match pm with
  | [] => [(f, [p])]
  | (f0, ps) :: rest =>
    if f0 = f then (f0, ps ++ [p]) :: rest
    else (f0, ps) :: pushPlatform rest f p

/-- The platform_map loop of consolidate_features: attribute every
feature outside the common set to its enabling platform. -/
def platformMapOf (common : List String) (features : List (String × List String)) :
    List (String × List String) :=
  features.foldl (fun pm pr =>
    pr.2.foldl (fun pm2 feature =>
      if feature ∈ common then pm2
      else pushPlatform pm2 feature pr.1) pm) []

/-- The platforms_to_features insertion of consolidate_features: push
the feature onto the group of its sorted platform list and re-sort that
group, creating a singleton group on first sight. -/
def pushFeature (m : List (List String × List String)) (key : List String) (f : String) :
    List (List String × List String) :=
  match m with
  | [] => [(key, [f])]
  | (k0, fs) :: rest =>
    if k0 = key then (k0, sortStrings (fs ++ [f])) :: rest
    else (k0, fs) :: pushFeature rest key f

/-- The platforms_to_features loop of consolidate_features. -/
def ptfOf (pm : List (String × List String)) : List (List String × List String) :=
  pm.foldl (fun m pr => pushFeature m (sortStrings pr.2) pr.1) []

/-- The sort_by comparison of consolidate_features turned into the
boolean form used by a stable ascending sort: true exactly when the
Ordering returned by the source comparator is not Greater.  Groups are
compared by platform count, ties by the first platform name, and two
empty platform lists compare Equal. -/
def tfLe (a b : TargetedFeatures) : Bool :=
  if a.platforms.length = b.platforms.length then
    match a.platforms, b.platforms with
    | p :: _, q :: _ => strLe p q
    | _, _ => true
  else a.platforms.length ≤ b.platforms.length

/-- Mirrors fn consolidate_features of features.rs: compute the common
set, attribute the remaining features to platform groups, sort each
group, stably sort the groups by the source comparator and reverse. -/
def consolidate_features (pkg : String × List (String × List String)) : String × Features :=
  let id := pkg.1
  let features := pkg.2
  let common_features := commonOf (features.map (fun pr => pr.2))
  let platform_map := platformMapOf common_features features
  let platforms_to_features := ptfOf platform_map
  let common_vec := sortStrings common_features
  let targeted0 : List TargetedFeatures :=
    platforms_to_features.map (fun ptf => { platforms := ptf.1, features := ptf.2 })
  let targeted_features := (insertionSortBy tfLe targeted0).reverse
  (id, { features := common_vec, targeted_features := targeted_features })

/-- The platform set assembled by get_per_platform_features: the
optional primary target and the optional additional targets collected
into a HashSet. -/
def gather_triples (settings : RazeSettings) : List String :=
  collectSet ((match settings.target with
      | some t => [t]
      | none => []) ++
    (match settings.targets with
      | some ts => ts
      | none => []))

/-- The per-platform loop of get_per_platform_features: run the tool
for each triple in turn, stopping at the first error or abort. -/
def run_all_triples (tool : String → ToolResult) (packages : List Package) :
    List String → Outcome (List (String × List (String × List String)))
  | [] => Outcome.ok []
  | t :: rest =>
    match run_cargo_tree (tool t) packages with
    | Outcome.ok m =>
      match run_all_triples tool packages rest with
      | Outcome.ok tm => Outcome.ok ((t, m) :: tm)
      | Outcome.err e => Outcome.err e
      | Outcome.aborted => Outcome.aborted
    | Outcome.err e => Outcome.err e
    | Outcome.aborted => Outcome.aborted

/-- Mirrors fn get_per_platform_features of features.rs: gather the
configured triples, run the tool per triple, transpose, and consolidate
per package. -/
def get_per_platform_features (settings : RazeSettings) (tool : String → ToolResult)
    (packages : List Package) : Outcome (List (String × Features)) :=
  match run_all_triples tool packages (gather_triples settings) with
  | Outcome.ok triple_map =>
    Outcome.ok ((transpose_keys triple_map).map consolidate_features)
  | Outcome.err e => Outcome.err e
  | Outcome.aborted => Outcome.aborted

/-- Claim C1: for the per-package map sending linux to the set of shared
and onlyLinux, and windows to the set of shared and onlyWindows,
consolidate_features returns features equal to the singleton shared and
targeted_features listing the windows group before the linux group.
The statement checks all eight list presentations of that map (both
orders of the two platforms and both orders within each feature set),
so the result is a property of the map contents alone. -/
theorem c1_scenario :
    ([
      [("linux", ["shared", "onlyLinux"]), ("windows", ["shared", "onlyWindows"])],
      [("linux", ["shared", "onlyLinux"]), ("windows", ["onlyWindows", "shared"])],
      [("linux", ["onlyLinux", "shared"]), ("windows", ["shared", "onlyWindows"])],
      [("linux", ["onlyLinux", "shared"]), ("windows", ["onlyWindows", "shared"])],
      [("windows", ["shared", "onlyWindows"]), ("linux", ["shared", "onlyLinux"])],
      [("windows", ["shared", "onlyWindows"]), ("linux", ["onlyLinux", "shared"])],
      [("windows", ["onlyWindows", "shared"]), ("linux", ["shared", "onlyLinux"])],
      [("windows", ["onlyWindows", "shared"]), ("linux", ["onlyLinux", "shared"])]
    ].map (fun m => consolidate_features ("pkg", m))) =
    List.replicate 8 ("pkg",
      { features := ["shared"],
        targeted_features := [
          { platforms := ["windows"], features := ["onlyWindows"] },
          { platforms := ["linux"], features := ["onlyLinux"] }] }) := by decide

/-- Claim C2 (observed failure): two list presentations of one and the
same per-package map (platform a with features g1 and g2, platform b
with g1 only, platform c with g2 only) are permutations of each other,
yet consolidate_features returns different Features for them: the two
targeted groups have equal platform count and equal first platform
name, the source comparator calls them Equal, and the stable sort then
preserves the hash iteration order of platforms_to_features. -/
theorem c2_order_dependent :
    ([("b", ["g1"]), ("c", ["g2"]), ("a", ["g1", "g2"])] :
        List (String × List String)).Perm
      [("c", ["g2"]), ("b", ["g1"]), ("a", ["g1", "g2"])] ∧
    consolidate_features ("p", [("b", ["g1"]), ("c", ["g2"]), ("a", ["g1", "g2"])]) ≠
      consolidate_features ("p", [("c", ["g2"]), ("b", ["g1"]), ("a", ["g1", "g2"])]) := by
  decide

/-- Claim C4: process_line on the line demo 1.2.3|alpha,beta| returns
the name demo, version 1.2.3 and the feature set with alpha and beta. -/
theorem c4_demo_line :
    process_line "demo 1.2.3|alpha,beta|" =
      Outcome.ok ("demo", ⟨1, 2, 3⟩, ["alpha", "beta"]) := by decide

/-- Claim C3 (counterexample): the line a|b c contains a space and a
delimiter, with the first space after the first delimiter, and
process_line aborts on it (the split_at call in the source panics)
instead of returning a parsed tuple or a version parse error. -/
theorem c3_counterexample :
    (' ' ∈ ("a|b c" : String).data ∧ '|' ∈ ("a|b c" : String).data) ∧
    process_line "a|b c" = Outcome.aborted := by decide

/-- Claim C10: with neither the primary target nor the additional
targets configured, get_per_platform_features returns the empty mapping
for every tool oracle and every catalog, so no subprocess result,
parsing or consolidation influences the outcome. -/
theorem c10_no_targets (tool : String → ToolResult) (packages : List Package) :
    get_per_platform_features ⟨none, none⟩ tool packages = Outcome.ok [] := rfl

/-- Claim C5 (counterexample): with one configured triple whose tool
invocation launches but exits non-zero, get_per_platform_features
aborts (the assert! in run_cargo_tree panics); it does not return the
subprocess failure error the claim describes. -/
theorem c5_counterexample :
    get_per_platform_features ⟨some "x", none⟩ (fun _ => ⟨true, false, true, []⟩) [] =
      Outcome.aborted ∧
    get_per_platform_features ⟨some "x", none⟩ (fun _ => ⟨true, false, true, []⟩) [] ≠
      Outcome.err ErrKind.subprocessFailure := by decide

/-- Tool oracle of the C6 counterexample: one platform whose output
holds a malformed line and a well-formed line naming a package that is
absent from the catalog. -/
def c6tool : String → ToolResult := fun _ => ⟨true, true, true, ["zz", "demo 1.2.3|a|"]⟩

/-- Claim C6 (counterexample): the tool output of the single platform
contains the line demo 1.2.3|a|, which parses to a pair without a match
in the empty catalog, yet the operation fails with the line format
error raised by the other (malformed) line, not with the lookup error
the claim promises. -/
theorem c6_counterexample :
    process_line "demo 1.2.3|a|" = Outcome.ok ("demo", ⟨1, 2, 3⟩, ["a"]) ∧
    find_package_id "demo" ⟨1, 2, 3⟩ [] = none ∧
    "demo 1.2.3|a|" ∈ keptLines (c6tool "x") ∧
    get_per_platform_features ⟨some "x", none⟩ c6tool [] =
      Outcome.err ErrKind.lineFormatError ∧
    get_per_platform_features ⟨some "x", none⟩ c6tool [] ≠
      Outcome.err ErrKind.lookupError := by decide

/-- The per-platform loop aborts as soon as it reaches a triple whose
run aborts, however many cleanly completed triples precede it. -/
theorem run_all_triples_abort (tool : String → ToolResult) (packages : List Package)
    (t : String) (rest : List String)
    (habort : run_cargo_tree (tool t) packages = Outcome.aborted) :
    ∀ pre : List String,
      (∀ p ∈ pre, ∃ m, run_cargo_tree (tool p) packages = Outcome.ok m) →
      run_all_triples tool packages (pre ++ t :: rest) = Outcome.aborted := by
  intro pre
  induction pre with
  | nil =>
    intro _
    simp only [List.nil_append, run_all_triples, habort]
  | cons p ps ih =>
    intro hpre
    obtain ⟨m, hm⟩ := hpre p (List.mem_cons_self _ _)
    have hps := ih (fun q hq => hpre q (List.mem_cons_of_mem _ hq))
    simp only [List.cons_append, run_all_triples, hm, List.append_eq, hps]

/-- Claim C5 (amended): whenever a configured triple at any position of
the platform list launches the tool successfully but the tool exits
non-zero, and the triples before it completed their runs cleanly (so
the failing invocation is actually reached), get_per_platform_features
aborts: the whole operation is fatal with no retry and no degraded
output, but the failure is an assertion abort, not a returned
subprocess failure error. -/
theorem c5_nonzero_exit_aborts (settings : RazeSettings) (tool : String → ToolResult)
    (packages : List Package) (pre : List String) (t : String) (rest : List String)
    (hg : gather_triples settings = pre ++ t :: rest)
    (hpre : ∀ p ∈ pre, ∃ m, run_cargo_tree (tool p) packages = Outcome.ok m)
    (hspawn : (tool t).spawnOk = true)
    (hexit : (tool t).exitSuccess = false) :
    get_per_platform_features settings tool packages = Outcome.aborted := by
  have h1 : run_cargo_tree (tool t) packages = Outcome.aborted := by
    simp [run_cargo_tree, hspawn, hexit]
  have h2 := run_all_triples_abort tool packages t rest h1 pre hpre
  simp [get_per_platform_features, hg, h2]

/-- Witness for the amended claim C5: two configured platforms, the
first clean, the second exiting non-zero. -/
theorem c5_witness :
    get_per_platform_features ⟨some "x", some ["y"]⟩
      (fun s => if s = "y" then ⟨true, false, true, []⟩ else ⟨true, true, true, []⟩) [] =
      Outcome.aborted :=
  c5_nonzero_exit_aborts ⟨some "x", some ["y"]⟩
    (fun s => if s = "y" then ⟨true, false, true, []⟩ else ⟨true, true, true, []⟩) []
    ["x"] "y" [] (by decide)
    (by
      intro p hp
      have hp2 : p = "x" := by simpa using hp
      subst hp2
      exact ⟨[], by decide⟩)
    (by decide) (by decide)

/-- firstIdx finds nothing exactly when no element satisfies the
predicate. -/
theorem firstIdx_none_iff (p : Char → Bool) (l : List Char) :
    firstIdx p l = none ↔ ∀ c ∈ l, ¬ p c := by
  induction l with
  | nil => simp [firstIdx]
  | cons c rest ih =>
    by_cases h : p c
    · simp [firstIdx, h]
    · simp [firstIdx, h, ih]

/-- A found index is a valid position. -/
theorem firstIdx_lt_length (p : Char → Bool) {l : List Char} {i : Nat}
    (h : firstIdx p l = some i) : i < l.length := by
  induction l generalizing i with
  | nil => simp [firstIdx] at h
  | cons c rest ih =>
    by_cases hc : p c
    · simp [firstIdx, hc] at h
      simp [← h]
    · simp only [firstIdx, hc, if_neg, Bool.false_eq_true, ↓reduceIte,
        Option.map_eq_some'] at h
      rcases h with ⟨j, hj, rfl⟩
      have := ih hj
      simp only [List.length_cons]
      omega

/-- Searching for a concrete character fails exactly when the character
is absent. -/
theorem firstIdx_char_none_iff (ch : Char) (l : List Char) :
    firstIdx (fun c => c == ch) l = none ↔ ch ∉ l := by
  rw [firstIdx_none_iff]
  constructor
  · intro h hmem
    exact h ch hmem (by simp)
  · intro h c hc hbeq
    rw [beq_iff_eq] at hbeq
    subst hbeq
    exact h hc

/-- Claim C3 (amended): process_line fails with the line format error
exactly when the line lacks a space or lacks a delimiter.  When both
exist and the first space precedes the first delimiter, process_line
returns a parsed tuple or a version parse error; when the first
delimiter precedes the first space, process_line aborts (the split_at
call in the source panics). -/
theorem c3_classification (s : String) :
    (process_line s = Outcome.err ErrKind.lineFormatError ↔
      (' ' ∉ s.data ∨ '|' ∉ s.data)) ∧
    (∀ space pipe,
      firstIdx (fun c => c == ' ') s.data = some space →
      firstIdx (fun c => c == '|') s.data = some pipe →
      ((space < pipe →
        (∃ n v feats, process_line s = Outcome.ok (n, v, feats)) ∨
          process_line s = Outcome.err ErrKind.versionParseError) ∧
       (pipe < space → process_line s = Outcome.aborted))) := by
  cases hs : firstIdx (fun c => c == ' ') s.data with
  | none =>
    have hmem : ' ' ∉ s.data := (firstIdx_char_none_iff _ _).mp hs
    constructor
    · simp [process_line, hs, hmem]
    · intro space pipe h1 _
      exact absurd h1 (by simp)
  | some sp =>
    have hmem1 : ' ' ∈ s.data := by
      by_contra h
      rw [← firstIdx_char_none_iff _ s.data] at h
      rw [hs] at h
      exact absurd h (by simp)
    cases hp : firstIdx (fun c => c == '|') s.data with
    | none =>
      have hmem : '|' ∉ s.data := (firstIdx_char_none_iff _ _).mp hp
      constructor
      · simp [process_line, hs, hp, hmem]
      · intro space pipe _ h2
        exact absurd h2 (by simp)
    | some pi =>
      have hmem2 : '|' ∈ s.data := by
        by_contra h
        rw [← firstIdx_char_none_iff _ s.data] at h
        rw [hp] at h
        exact absurd h (by simp)
      have hlen : (s.data.take pi).length = pi := by
        simp only [List.length_take]
        exact Nat.min_eq_left (Nat.le_of_lt (firstIdx_lt_length _ hp))
      constructor
      · have hne : process_line s ≠ Outcome.err ErrKind.lineFormatError := by
          simp only [process_line, hs, hp]
          split
          · simp
          · split
            · simp
            · simp
        simp [hne, hmem1, hmem2]
      · intro space pipe h1 h2
        injection h1 with h1
        injection h2 with h2
        subst h1
        subst h2
        constructor
        · intro hlt
          have hnot : ¬ (s.data.take pi).length < sp := by
            rw [hlen]
            omega
          simp only [process_line, hs, hp]
          rw [if_neg hnot]
          cases hv : versionParse (versionTokenOf (List.take pi s.data) sp) with
          | some v => left; exact ⟨_, _, _, rfl⟩
          | none => right; rfl
        · intro hlt
          have hyes : (s.data.take pi).length < sp := by
            rw [hlen]
            omega
          simp only [process_line, hs, hp]
          rw [if_pos hyes]

/-- Witness for the amended claim C3 at the well-formed demo line. -/
theorem c3_classification_witness :
    (∃ n v feats, process_line "demo 1.2.3|alpha,beta|" = Outcome.ok (n, v, feats)) ∨
      process_line "demo 1.2.3|alpha,beta|" = Outcome.err ErrKind.versionParseError :=
  ((c3_classification "demo 1.2.3|alpha,beta|").2 4 10 (by decide) (by decide)).1
    (by decide)

/-- Filtering by membership in a superset keeps the list unchanged. -/
theorem intersect_keep {s hs : List String} (h : ∀ x ∈ s, x ∈ hs) :
    intersectList s hs = s := by
  unfold intersectList
  rw [List.filter_eq_self]
  intro a ha
  simpa using h a ha

/-- Intersecting with sets that all contain the seed leaves the seed
unchanged. -/
theorem commonOf_fold_uniform {S : List String} :
    ∀ (sets : List (List String)), (∀ hs ∈ sets, ∀ x ∈ S, x ∈ hs) →
      sets.foldl intersectList S = S := by
  intro sets
  induction sets with
  | nil => intro _; rfl
  | cons hs tl ih =>
    intro h
    simp only [List.foldl_cons]
    rw [intersect_keep (h hs (List.mem_cons_self hs tl))]
    exact ih (fun q hq x hx => h q (List.mem_cons_of_mem hs hq) x hx)

/-- The inner attribution loop adds nothing when every feature of the
platform is common. -/
theorem foldl_skip_all (common : List String) (p : String) :
    ∀ (l : List String) (acc : List (String × List String)),
      (∀ f ∈ l, f ∈ common) →
      l.foldl (fun pm2 feature =>
        if feature ∈ common then pm2 else pushPlatform pm2 feature p) acc = acc := by
  intro l
  induction l with
  | nil => intro acc _; rfl
  | cons f tl ih =>
    intro acc h
    have hf : f ∈ common := h f (List.mem_cons_self f tl)
    simp only [List.foldl_cons, if_pos hf]
    exact ih acc (fun x hx => h x (List.mem_cons_of_mem f hx))

/-- The attribution loop adds nothing when every feature of every
platform is common. -/
theorem platformMapOf_all_common (common : List String) :
    ∀ (features : List (String × List String)) (acc : List (String × List String)),
      (∀ pr ∈ features, ∀ f ∈ pr.2, f ∈ common) →
      features.foldl (fun pm pr =>
        pr.2.foldl (fun pm2 feature =>
          if feature ∈ common then pm2 else pushPlatform pm2 feature pr.1) pm) acc = acc := by
  intro features
  induction features with
  | nil => intro acc _; rfl
  | cons pr tl ih =>
    intro acc h
    simp only [List.foldl_cons]
    rw [foldl_skip_all common pr.1 pr.2 acc (h pr (List.mem_cons_self pr tl))]
    exact ih acc (fun q hq f hf => h q (List.mem_cons_of_mem pr hq) f hf)

/-- Claim C8: when every platform of a non-empty per-package map
carries the same feature set S (stated per platform as mutual
containment with S, the set of the first platform), the consolidated
targeted_features list is empty and the features field is S sorted. -/
theorem c8_uniform_sets (id p0 : String) (S : List String)
    (rest : List (String × List String))
    (h : ∀ pr ∈ rest, (∀ f ∈ pr.2, f ∈ S) ∧ (∀ f ∈ S, f ∈ pr.2)) :
    (consolidate_features (id, (p0, S) :: rest)).2.targeted_features = [] ∧
    (consolidate_features (id, (p0, S) :: rest)).2.features = sortStrings S := by
  have hcommon : commonOf (S :: rest.map (fun pr => pr.2)) = S := by
    simp only [commonOf]
    refine commonOf_fold_uniform _ ?_
    intro hs hmem x hx
    rcases List.mem_map.mp hmem with ⟨pr, hpr, rfl⟩
    exact (h pr hpr).2 x hx
  have hall : ∀ pr ∈ (p0, S) :: rest, ∀ f ∈ pr.2, f ∈ S := by
    intro pr hpr f hf
    rcases List.mem_cons.mp hpr with h1 | h2
    · subst h1; exact hf
    · exact (h pr h2).1 f hf
  have hpm : platformMapOf S ((p0, S) :: rest) = [] := by
    unfold platformMapOf
    exact platformMapOf_all_common S _ [] hall
  constructor
  · simp [consolidate_features, hcommon, hpm, ptfOf, insertionSortBy]
  · simp [consolidate_features, hcommon]

/-- Witness for claim C8: two platforms with the same two-element set,
presented in different orders. -/
theorem c8_witness :
    (consolidate_features ("p", [("linux", ["b", "a"]), ("win", ["a", "b"])])).2.targeted_features = [] ∧
    (consolidate_features ("p", [("linux", ["b", "a"]), ("win", ["a", "b"])])).2.features = sortStrings ["b", "a"] :=
  c8_uniform_sets "p" "linux" ["b", "a"] [("win", ["a", "b"])] (by decide)

/-- Ordered insertion permutes consing. -/
theorem orderedInsertBy_perm (le : α → α → Bool) (a : α) :
    ∀ l : List α, (orderedInsertBy le a l).Perm (a :: l) := by
  intro l
  induction l with
  | nil => exact List.Perm.refl _
  | cons b tl ih =>
    unfold orderedInsertBy
    by_cases h : le a b = true
    · rw [if_pos h]
    · rw [if_neg h]
      exact (ih.cons b).trans (List.Perm.swap a b tl)

/-- The stable sort permutes its input. -/
theorem insertionSortBy_perm (le : α → α → Bool) :
    ∀ l : List α, (insertionSortBy le l).Perm l := by
  intro l
  induction l with
  | nil => exact List.Perm.refl _
  | cons a tl ih =>
    simp only [insertionSortBy]
    exact (orderedInsertBy_perm le a _).trans (ih.cons a)

/-- The intersection fold preserves freedom from duplicates. -/
theorem foldl_intersect_nodup :
    ∀ (sets : List (List String)) (s : List String), s.Nodup →
      (sets.foldl intersectList s).Nodup := by
  intro sets
  induction sets with
  | nil => intro s hs; exact hs
  | cons hs0 tl ih =>
    intro s h
    simp only [List.foldl_cons]
    exact ih _ (by unfold intersectList; exact h.filter _)

/-- The common set is free of duplicates when the platform sets are. -/
theorem commonOf_nodup {sets : List (List String)} (h : ∀ s ∈ sets, s.Nodup) :
    (commonOf sets).Nodup := by
  cases sets with
  | nil => simp [commonOf]
  | cons s tl => exact foldl_intersect_nodup tl s (h s (List.mem_cons_self _ _))

/-- Pushing a platform onto an existing feature entry leaves the key
list unchanged. -/
theorem pushPlatform_fst_mem {pm : List (String × List String)} {f : String} (p : String)
    (h : f ∈ pm.map Prod.fst) :
    (pushPlatform pm f p).map Prod.fst = pm.map Prod.fst := by
  induction pm with
  | nil => simp at h
  | cons pr tl ih =>
    obtain ⟨f0, ps⟩ := pr
    simp only [List.map_cons, List.mem_cons] at h
    by_cases hf : f0 = f
    · simp [pushPlatform, hf]
    · rcases h with h | h
      · exact absurd h.symm hf
      · simp [pushPlatform, hf, ih h]

/-- Pushing a platform for a new feature appends the feature to the key
list. -/
theorem pushPlatform_fst_not_mem {pm : List (String × List String)} {f : String} (p : String)
    (h : f ∉ pm.map Prod.fst) :
    (pushPlatform pm f p).map Prod.fst = pm.map Prod.fst ++ [f] := by
  induction pm with
  | nil => simp [pushPlatform]
  | cons pr tl ih =>
    obtain ⟨f0, ps⟩ := pr
    simp only [List.map_cons, List.mem_cons] at h
    push_neg at h
    obtain ⟨h1, h2⟩ := h
    have hne : f0 ≠ f := fun e => h1 e.symm
    simp [pushPlatform, hne, ih h2]

/-- Invariant of the inner attribution loop: the fold keeps the feature
keys duplicate-free and outside the common set. -/
theorem pushPlatform_step_inv (common : List String) (p : String) :
    ∀ (l : List String) (acc : List (String × List String)),
      (acc.map Prod.fst).Nodup → (∀ k ∈ acc.map Prod.fst, k ∉ common) →
      ((l.foldl (fun pm2 feature =>
          if feature ∈ common then pm2 else pushPlatform pm2 feature p) acc).map Prod.fst).Nodup ∧
      ∀ k ∈ (l.foldl (fun pm2 feature =>
          if feature ∈ common then pm2 else pushPlatform pm2 feature p) acc).map Prod.fst,
        k ∉ common := by
  intro l
  induction l with
  | nil => intro acc h1 h2; exact ⟨h1, h2⟩
  | cons f tl ih =>
    intro acc h1 h2
    simp only [List.foldl_cons]
    by_cases hc : f ∈ common
    · rw [if_pos hc]; exact ih acc h1 h2
    · rw [if_neg hc]
      by_cases hm : f ∈ acc.map Prod.fst
      · apply ih
        · rw [pushPlatform_fst_mem p hm]; exact h1
        · rw [pushPlatform_fst_mem p hm]; exact h2
      · apply ih
        · rw [pushPlatform_fst_not_mem p hm]
          simp [List.nodup_append, h1, hm]
        · rw [pushPlatform_fst_not_mem p hm]
          intro k hk
          rcases List.mem_append.mp hk with h | h
          · exact h2 k h
          · simp only [List.mem_singleton] at h
            subst h
            exact hc

/-- Invariant of the whole attribution fold. -/
theorem platformMapOf_fold_inv (common : List String) :
    ∀ (features : List (String × List String)) (acc : List (String × List String)),
      (acc.map Prod.fst).Nodup → (∀ k ∈ acc.map Prod.fst, k ∉ common) →
      (((features.foldl (fun pm pr =>
          pr.2.foldl (fun pm2 feature =>
            if feature ∈ common then pm2 else pushPlatform pm2 feature pr.1) pm) acc).map
          Prod.fst).Nodup ∧
       ∀ k ∈ (features.foldl (fun pm pr =>
          pr.2.foldl (fun pm2 feature =>
            if feature ∈ common then pm2 else pushPlatform pm2 feature pr.1) pm) acc).map
          Prod.fst, k ∉ common) := by
  intro features
  induction features with
  | nil => intro acc h1 h2; exact ⟨h1, h2⟩
  | cons pr tl ih =>
    intro acc h1 h2
    simp only [List.foldl_cons]
    have step := pushPlatform_step_inv common pr.1 pr.2 acc h1 h2
    exact ih _ step.1 step.2

/-- The keys of platform_map are duplicate-free and disjoint from the
common set. -/
theorem platformMapOf_inv (common : List String) (features : List (String × List String)) :
    ((platformMapOf common features).map Prod.fst).Nodup ∧
    ∀ k ∈ (platformMapOf common features).map Prod.fst, k ∉ common := by
  unfold platformMapOf
  exact platformMapOf_fold_inv common features [] (by simp) (by simp)

/-- Pushing a feature into its group adds exactly that feature to the
multiset of grouped features. -/
theorem pushFeature_flatten_perm (m : List (List String × List String)) (key : List String)
    (f : String) :
    (((pushFeature m key f).map Prod.snd).flatten).Perm (f :: (m.map Prod.snd).flatten) := by
  induction m with
  | nil => simp [pushFeature]
  | cons pr tl ih =>
    obtain ⟨k0, fs⟩ := pr
    by_cases hk : k0 = key
    · simp only [pushFeature, if_pos hk, List.map_cons, List.flatten_cons]
      refine ((insertionSortBy_perm _ _).append_right _).trans ?_
      rw [List.append_assoc]
      exact List.perm_middle
    · simp only [pushFeature, if_neg hk, List.map_cons, List.flatten_cons]
      refine (List.Perm.append_left fs ih).trans ?_
      exact List.perm_middle

/-- The grouping fold distributes the platform_map keys over the
groups: the grouped features are a permutation of the keys. -/
theorem ptf_fold_flatten_perm :
    ∀ (pm : List (String × List String)) (acc : List (List String × List String)),
      (((pm.foldl (fun m pr => pushFeature m (sortStrings pr.2) pr.1) acc).map
          Prod.snd).flatten).Perm
        ((acc.map Prod.snd).flatten ++ pm.map Prod.fst) := by
  intro pm
  induction pm with
  | nil =>
    intro acc
    simp only [List.foldl_nil, List.map_nil, List.append_nil]
    exact List.Perm.refl _
  | cons pr tl ih =>
    intro acc
    simp only [List.foldl_cons, List.map_cons]
    refine (ih _).trans ?_
    refine ((pushFeature_flatten_perm acc (sortStrings pr.2) pr.1).append_right _).trans ?_
    exact List.perm_middle.symm

/-- The grouped features of platforms_to_features are a permutation of
the platform_map keys. -/
theorem ptfOf_flatten_perm (pm : List (String × List String)) :
    (((ptfOf pm).map Prod.snd).flatten).Perm (pm.map Prod.fst) := by
  unfold ptfOf
  simpa using ptf_fold_flatten_perm pm []

/-- Claim C9: in the consolidated Features of a non-empty per-package
map with duplicate-free platform sets, every feature name occurs at
most once across the features field and all targeted groups together:
never in both, never in two groups, never twice in one place. -/
theorem c9_feature_partition (id : String) (m : List (String × List String))
    (_hne : m ≠ []) (hnd : ∀ pr ∈ m, pr.2.Nodup) :
    ((consolidate_features (id, m)).2.features ++
      (((consolidate_features (id, m)).2.targeted_features).map
        TargetedFeatures.features).flatten).Nodup := by
  have h1 : (consolidate_features (id, m)).2.features =
      sortStrings (commonOf (m.map (fun pr => pr.2))) := rfl
  have h2 : (consolidate_features (id, m)).2.targeted_features =
      (insertionSortBy tfLe
        ((ptfOf (platformMapOf (commonOf (m.map (fun pr => pr.2))) m)).map
          (fun ptf => { platforms := ptf.1, features := ptf.2 }))).reverse := rfl
  rw [h1, h2]
  have hCnd : (commonOf (m.map (fun pr => pr.2))).Nodup := by
    apply commonOf_nodup
    intro s hs
    rcases List.mem_map.mp hs with ⟨pr, hpr, rfl⟩
    exact hnd pr hpr
  have hsortC : (sortStrings (commonOf (m.map (fun pr => pr.2)))).Perm
      (commonOf (m.map (fun pr => pr.2))) := insertionSortBy_perm _ _
  have hkeys := platformMapOf_inv (commonOf (m.map (fun pr => pr.2))) m
  have hrev : ((insertionSortBy tfLe
      ((ptfOf (platformMapOf (commonOf (m.map (fun pr => pr.2))) m)).map
        (fun ptf => { platforms := ptf.1, features := ptf.2 }))).reverse).Perm
      ((ptfOf (platformMapOf (commonOf (m.map (fun pr => pr.2))) m)).map
        (fun ptf => ({ platforms := ptf.1, features := ptf.2 } : TargetedFeatures))) :=
    (List.reverse_perm _).trans (insertionSortBy_perm _ _)
  have hmap : (((insertionSortBy tfLe
      ((ptfOf (platformMapOf (commonOf (m.map (fun pr => pr.2))) m)).map
        (fun ptf => { platforms := ptf.1, features := ptf.2 }))).reverse).map
      TargetedFeatures.features).Perm
      ((ptfOf (platformMapOf (commonOf (m.map (fun pr => pr.2))) m)).map Prod.snd) := by
    have := hrev.map TargetedFeatures.features
    simpa [List.map_map, Function.comp] using this
  have hflat : ((((insertionSortBy tfLe
      ((ptfOf (platformMapOf (commonOf (m.map (fun pr => pr.2))) m)).map
        (fun ptf => { platforms := ptf.1, features := ptf.2 }))).reverse).map
      TargetedFeatures.features).flatten).Perm
      ((platformMapOf (commonOf (m.map (fun pr => pr.2))) m).map Prod.fst) :=
    hmap.flatten.trans (ptfOf_flatten_perm _)
  apply List.Nodup.append
  · exact (hsortC.nodup_iff).mpr hCnd
  · exact (hflat.nodup_iff).mpr hkeys.1
  · intro a ha hb
    have haC : a ∈ commonOf (m.map (fun pr => pr.2)) := (hsortC.mem_iff).mp ha
    have hak : a ∈ (platformMapOf (commonOf (m.map (fun pr => pr.2))) m).map Prod.fst :=
      (hflat.mem_iff).mp hb
    exact hkeys.2 a hak haC

/-- Witness for claim C9 at a concrete two-platform map with a shared
feature and two exclusive ones. -/
theorem c9_witness :
    ((consolidate_features ("p", [("linux", ["a", "b"]), ("win", ["b", "c"])])).2.features ++
      (((consolidate_features ("p", [("linux", ["a", "b"]), ("win", ["b", "c"])])).2.targeted_features).map
        TargetedFeatures.features).flatten).Nodup :=
  c9_feature_partition "p" [("linux", ["a", "b"]), ("win", ["b", "c"])] (by decide) (by decide)

/-- Membership in a set union. -/
theorem mem_unionSets {a b : List String} {f : String} :
    f ∈ unionSets a b ↔ f ∈ a ∨ f ∈ b := by
  unfold unionSets
  by_cases h : f ∈ a
  · simp [h]
  · simp [h]

/-- Lookup after the union-insert of make_package_map: the inserted key
maps to the union with any previous value, other keys are untouched. -/
theorem lookupAssoc_insertUnion (m : List (String × List String)) (id : String)
    (fs : List String) (k : String) :
    lookupAssoc (insertUnion m id fs) k =
      if k = id then
        some (match lookupAssoc m id with
          | some v => unionSets v fs
          | none => fs)
      else lookupAssoc m k := by
  induction m with
  | nil =>
    by_cases h : k = id
    · subst h; simp [insertUnion, lookupAssoc]
    · have h2 : id ≠ k := fun e => h e.symm
      simp [insertUnion, lookupAssoc, h, h2]
  | cons pr tl ih =>
    obtain ⟨k0, v⟩ := pr
    by_cases h0 : k0 = id
    · subst h0
      by_cases hk : k = k0
      · subst hk
        simp [insertUnion, lookupAssoc]
      · have hk2 : k0 ≠ k := fun e => hk e.symm
        simp [insertUnion, lookupAssoc, hk, hk2]
    · by_cases hk : k = k0
      · subst hk
        have h0s : k ≠ id := fun e => h0 e
        simp [insertUnion, lookupAssoc, h0, h0s]
      · have hk2 : k0 ≠ k := fun e => hk e.symm
        simp [insertUnion, lookupAssoc, h0, hk2, ih]

/-- Specification of the make_package_map loop: a feature belongs to
the final entry of a package identity exactly when it came from the
accumulator or from some line that resolves to that identity.  This is
union-on-duplicate semantics rather than last-one-wins. -/
theorem make_package_map_go_spec (packages : List Package) :
    ∀ (crates : List String) (acc m : List (String × List String)),
      make_package_map_go packages crates acc = Outcome.ok m →
      ∀ (id : String) (fs : List String), lookupAssoc m id = some fs →
      ∀ f : String,
        (f ∈ fs ↔ ((∃ fs0, lookupAssoc acc id = some fs0 ∧ f ∈ fs0) ∨
          ∃ c ∈ crates, ∃ n v feats, process_line c = Outcome.ok (n, v, feats) ∧
            find_package_id n v packages = some id ∧ f ∈ feats)) := by
  intro crates
  induction crates with
  | nil =>
    intro acc m hok id fs hl f
    simp only [make_package_map_go] at hok
    injection hok with hok
    subst hok
    simp only [List.not_mem_nil, false_and, exists_false, exists_const, or_false]
    constructor
    · intro hf; exact ⟨fs, hl, hf⟩
    · rintro ⟨fs0, h1, h2⟩
      rw [hl] at h1
      injection h1 with h1
      subst h1
      exact h2
  | cons c rest ih =>
    intro acc m hok id fs hl f
    cases hpl : process_line c with
    | ok t =>
      obtain ⟨n0, v0, feats0⟩ := t
      simp only [make_package_map_go, hpl] at hok
      cases hfind : find_package_id n0 v0 packages with
      | some pid =>
        simp only [hfind] at hok
        have IH := ih (insertUnion acc pid feats0) m hok id fs hl f
        rw [IH, lookupAssoc_insertUnion]
        by_cases hid : id = pid
        · subst hid
          have hhead : (∃ n v feats, process_line c = Outcome.ok (n, v, feats) ∧
              find_package_id n v packages = some id ∧ f ∈ feats) ↔ f ∈ feats0 := by
            constructor
            · rintro ⟨n', v', feats', hp, _, hmem⟩
              rw [hpl] at hp
              have hfe : n0 = n' ∧ v0 = v' ∧ feats0 = feats' := by
                simpa using hp
              rw [← hfe.2.2] at hmem
              exact hmem
            · intro hmem
              exact ⟨n0, v0, feats0, hpl, hfind, hmem⟩
          cases hacc : lookupAssoc acc id with
          | some v =>
            simp [hacc, mem_unionSets, List.exists_mem_cons_iff, hhead]
            try tauto
          | none =>
            simp [hacc, List.exists_mem_cons_iff, hhead]
            try tauto
        · have hhead : ¬ (∃ n v feats, process_line c = Outcome.ok (n, v, feats) ∧
              find_package_id n v packages = some id ∧ f ∈ feats) := by
            rintro ⟨n', v', feats', hp, hf2, _⟩
            rw [hpl] at hp
            have hfe : n0 = n' ∧ v0 = v' ∧ feats0 = feats' := by
              simpa using hp
            rw [← hfe.1, ← hfe.2.1] at hf2
            rw [hfind] at hf2
            injection hf2 with hf2
            exact hid hf2.symm
          simp only [if_neg hid, List.exists_mem_cons_iff, hhead, false_or]
      | none =>
        simp only [hfind] at hok
        exact Outcome.noConfusion hok
    | err e =>
      simp only [make_package_map_go, hpl] at hok
      exact Outcome.noConfusion hok
    | aborted =>
      simp only [make_package_map_go, hpl] at hok
      exact Outcome.noConfusion hok

/-- Claim C7: in the mapping built by make_package_map, a feature
belongs to the entry of a package identity exactly when some input line
resolving to that identity reports it, so an identity hit by several
lines receives the union of their feature sets, not the last one. -/
theorem c7_union_semantics (crates : List String) (packages : List Package)
    (m : List (String × List String)) (id : String) (fs : List String)
    (hok : make_package_map crates packages = Outcome.ok m)
    (hl : lookupAssoc m id = some fs) (f : String) :
    f ∈ fs ↔ ∃ c ∈ crates, ∃ n v feats,
      process_line c = Outcome.ok (n, v, feats) ∧
      find_package_id n v packages = some id ∧ f ∈ feats := by
  have h := make_package_map_go_spec packages crates [] m hok id fs hl f
  simpa [lookupAssoc] using h

/-- Witness for claim C7: two lines resolve to the same identity with
feature sets {a} and {b}; the entry holds their union, so a is present
although the last line reported only b. -/
theorem c7_witness :
    "a" ∈ ["a", "b"] ↔ ∃ c ∈ ["demo 1.2.3|a|", "demo 1.2.3|b|"], ∃ n v feats,
      process_line c = Outcome.ok (n, v, feats) ∧
      find_package_id n v [⟨"demo", ⟨1, 2, 3⟩, "id0"⟩] = some "id0" ∧ "a" ∈ feats :=
  c7_union_semantics ["demo 1.2.3|a|", "demo 1.2.3|b|"] [⟨"demo", ⟨1, 2, 3⟩, "id0"⟩]
    [("id0", ["a", "b"])] "id0" ["a", "b"] (by decide) (by decide) "a"

/-- Whether a line parses successfully (process_line returns a tuple). -/
def parseOk (c : String) : Bool :=
  match process_line c with
  | Outcome.ok _ => true
  | _ => false

/-- Whether a line parses to a (name, version) pair with no exact match
in the catalog. -/
def lineUnresolvable (c : String) (packages : List Package) : Bool :=
  match process_line c with
  | Outcome.ok (n, v, _) =>
    match find_package_id n v packages with
    | none => true
    | some _ => false
  | _ => false

/-- parseOk spelled out. -/
theorem parseOk_iff {c : String} :
    parseOk c = true ↔ ∃ n v feats, process_line c = Outcome.ok (n, v, feats) := by
  unfold parseOk
  cases h : process_line c with
  | ok a =>
    obtain ⟨n, v, fs⟩ := a
    constructor
    · intro _; exact ⟨n, v, fs, rfl⟩
    · intro _; rfl
  | err e => simp
  | aborted => simp

/-- The make_package_map loop fails with the lookup error when every
line parses and some line is unresolvable. -/
theorem make_package_map_go_lookup_fail (packages : List Package) :
    ∀ (crates : List String) (acc : List (String × List String)),
      (∀ c ∈ crates, parseOk c = true) →
      (∃ c ∈ crates, lineUnresolvable c packages = true) →
      make_package_map_go packages crates acc = Outcome.err ErrKind.lookupError := by
  intro crates
  induction crates with
  | nil =>
    intro acc _ hex
    simp at hex
  | cons c rest ih =>
    intro acc hall hex
    obtain ⟨n0, v0, feats0, hpl⟩ := parseOk_iff.mp (hall c (List.mem_cons_self _ _))
    simp only [make_package_map_go, hpl]
    cases hfind : find_package_id n0 v0 packages with
    | none => rfl
    | some pid =>
      show make_package_map_go packages rest (insertUnion acc pid feats0) =
        Outcome.err ErrKind.lookupError
      apply ih
      · intro c' hc'; exact hall c' (List.mem_cons_of_mem _ hc')
      · rcases hex with ⟨c', hc', hun⟩
        rcases List.mem_cons.mp hc' with rfl | hmem
        · unfold lineUnresolvable at hun
          rw [hpl] at hun
          simp [hfind] at hun
        · exact ⟨c', hmem, hun⟩

/-- When every line parses, the make_package_map loop either succeeds
or fails with the lookup error; no other outcome is possible. -/
theorem make_package_map_go_ok_or (packages : List Package) :
    ∀ (crates : List String) (acc : List (String × List String)),
      (∀ c ∈ crates, parseOk c = true) →
      (∃ m, make_package_map_go packages crates acc = Outcome.ok m) ∨
        make_package_map_go packages crates acc = Outcome.err ErrKind.lookupError := by
  intro crates
  induction crates with
  | nil => intro acc _; exact Or.inl ⟨acc, rfl⟩
  | cons c rest ih =>
    intro acc hall
    obtain ⟨n0, v0, feats0, hpl⟩ := parseOk_iff.mp (hall c (List.mem_cons_self _ _))
    simp only [make_package_map_go, hpl]
    cases hfind : find_package_id n0 v0 packages with
    | none => exact Or.inr rfl
    | some pid =>
      exact ih (insertUnion acc pid feats0)
        (fun c' hc' => hall c' (List.mem_cons_of_mem _ hc'))

/-- run_cargo_tree under a clean subprocess run is the package map of
the kept lines. -/
theorem run_cargo_tree_flags (r : ToolResult) (packages : List Package)
    (h1 : r.spawnOk = true) (h2 : r.exitSuccess = true) (h3 : r.utf8Ok = true) :
    run_cargo_tree r packages = make_package_map (keptLines r) packages := by
  simp [run_cargo_tree, h1, h2, h3]

/-- The per-platform loop fails with the lookup error when all tool
runs are clean, every kept line parses, and some platform has an
unresolvable line. -/
theorem run_all_triples_lookup_fail (tool : String → ToolResult) (packages : List Package) :
    ∀ (triples : List String),
      (∀ t ∈ triples, (tool t).spawnOk = true ∧ (tool t).exitSuccess = true ∧
        (tool t).utf8Ok = true) →
      (∀ t ∈ triples, ∀ c ∈ keptLines (tool t), parseOk c = true) →
      (∃ t ∈ triples, ∃ c ∈ keptLines (tool t), lineUnresolvable c packages = true) →
      run_all_triples tool packages triples = Outcome.err ErrKind.lookupError := by
  intro triples
  induction triples with
  | nil => intro _ _ hex; simp at hex
  | cons t rest ih =>
    intro hflags hparse hex
    obtain ⟨hf1, hf2, hf3⟩ := hflags t (List.mem_cons_self _ _)
    have hrct : run_cargo_tree (tool t) packages =
        make_package_map (keptLines (tool t)) packages :=
      run_cargo_tree_flags _ _ hf1 hf2 hf3
    by_cases hin : ∃ c ∈ keptLines (tool t), lineUnresolvable c packages = true
    · have hfail : make_package_map (keptLines (tool t)) packages =
          Outcome.err ErrKind.lookupError := by
        unfold make_package_map
        exact make_package_map_go_lookup_fail packages _ []
          (hparse t (List.mem_cons_self _ _)) hin
      rw [← hrct] at hfail
      simp only [run_all_triples, hfail]
    · have hrest : run_all_triples tool packages rest = Outcome.err ErrKind.lookupError := by
        apply ih
        · intro t' ht'; exact hflags t' (List.mem_cons_of_mem _ ht')
        · intro t' ht'; exact hparse t' (List.mem_cons_of_mem _ ht')
        · rcases hex with ⟨t', ht', hrest'⟩
          rcases List.mem_cons.mp ht' with rfl | hmem
          · exact absurd hrest' hin
          · exact ⟨t', hmem, hrest'⟩
      have hor := make_package_map_go_ok_or packages (keptLines (tool t)) []
        (hparse t (List.mem_cons_self _ _))
      rcases hor with ⟨m, hm⟩ | herr
      · have hrct2 : run_cargo_tree (tool t) packages = Outcome.ok m := by
          rw [hrct]; exact hm
        simp only [run_all_triples, hrct2, hrest]
      · have hrct2 : run_cargo_tree (tool t) packages = Outcome.err ErrKind.lookupError := by
          rw [hrct]; exact herr
        simp only [run_all_triples, hrct2]

/-- Claim C6 (amended): when every tool invocation is clean and every
kept line of every platform parses, an unresolvable (name, version)
pair anywhere in the tool output makes get_per_platform_features fail
with the lookup error and return no mapping.  (Without the all-lines-
parse proviso another lines parse error can be reported instead, see
the counterexample.) -/
theorem c6_lookup_failure (settings : RazeSettings) (tool : String → ToolResult)
    (packages : List Package)
    (hflags : ∀ t ∈ gather_triples settings, (tool t).spawnOk = true ∧
      (tool t).exitSuccess = true ∧ (tool t).utf8Ok = true)
    (hparse : ∀ t ∈ gather_triples settings, ∀ c ∈ keptLines (tool t), parseOk c = true)
    (hmiss : ∃ t ∈ gather_triples settings, ∃ c ∈ keptLines (tool t),
      lineUnresolvable c packages = true) :
    get_per_platform_features settings tool packages = Outcome.err ErrKind.lookupError := by
  have h := run_all_triples_lookup_fail tool packages (gather_triples settings)
    hflags hparse hmiss
  simp [get_per_platform_features, h]

/-- Witness for the amended claim C6: one clean platform whose single
output line parses but names a package absent from the empty catalog. -/
theorem c6_witness :
    get_per_platform_features ⟨some "x", none⟩
      (fun _ => ⟨true, true, true, ["demo 1.2.3|a|"]⟩) [] =
      Outcome.err ErrKind.lookupError :=
  c6_lookup_failure ⟨some "x", none⟩ (fun _ => ⟨true, true, true, ["demo 1.2.3|a|"]⟩) []
    (by decide) (by decide) (by decide)
